import Mathlib

/-!
Verification of the tick-scheduling layer (bevy_contrib_schedules).

Shallow embedding of src/lib.rs. Machine floats (f64) are modelled by the
rationals; a Rust panic is modelled by returning none; the pipeline executor
runs are recorded as an event trace. Names follow the source where Lean
permits it.
-/

/-- Event emitted by one call to PackedSchedule.run: the single executor
set-up step at the top of run, or one pipeline pass of the tick loop. -/
inductive Ev
  | init
  | pass
deriving DecidableEq, Repr

/-- Number of pipeline passes recorded in a trace. -/
def passCount : List Ev → ℕ
  | [] => 0
  | Ev.pass :: rest => passCount rest + 1
  | Ev.init :: rest => passCount rest

/-- ScheduleType from the source: Always, or Fixed(rate, accumulator). -/
inductive ScheduleType
  | Always
  | Fixed (rate : ℚ) (accumulator : ℚ)
deriving DecidableEq, Repr

/-- Model of the bevy Schedule owned by a PackedSchedule: the ordered stage
names and the registered systems (stage name, system id). The Rust Default
instance yields the empty schedule. -/
structure Schedule where
  stages : List String
  systems : List (String × ℕ)
deriving DecidableEq, Repr

/-- Rust Default::default() for Schedule: empty stages, no systems. -/
def Schedule.mkDefault : Schedule := ⟨[], []⟩

/-- PackedSchedule(ScheduleType, Schedule, ParallelExecutor). The executor
carries no state observable by the claims, so it is omitted. -/
structure PackedSchedule where
  ty : ScheduleType
  sched : Schedule
deriving DecidableEq, Repr

/-- Rust Default for PackedSchedule: Always policy, default schedule. -/
def PackedSchedule.mkDefault : PackedSchedule := ⟨ScheduleType.Always, Schedule.mkDefault⟩

/-- The tick loop of PackedSchedule.run for the Fixed policy, written as a
function: while accumulator >= rate, run one pass and subtract rate.
Returns the number of passes together with the final accumulator. The
guard carries the 0 < rate termination precondition; see drainFuel for the
literal unguarded loop and the lemmas relating the two. -/
def fixedDrain (rate : ℚ) (acc : ℚ) : ℕ × ℚ :=
  if h : 0 < rate ∧ rate ≤ acc then
    let r := fixedDrain rate (acc - rate)
    (r.1 + 1, r.2)
  else
    (0, acc)
termination_by (⌊acc / rate⌋).toNat
decreasing_by
  obtain ⟨hr, hra⟩ := h
  have hne : rate ≠ 0 := ne_of_gt hr
  have h1 : (acc - rate) / rate = acc / rate - 1 := by
    field_simp
  have h2 : ⌊(acc - rate) / rate⌋ = ⌊acc / rate⌋ - 1 := by
    rw [h1]
    exact_mod_cast Int.floor_sub_int (acc / rate) 1
  have h3 : (1 : ℚ) ≤ acc / rate := (one_le_div hr).mpr hra
  have h4 : (1 : ℤ) ≤ ⌊acc / rate⌋ := Int.le_floor.mpr (by exact_mod_cast h3)
  omega

/-- The literal while loop of the source, with explicit fuel: returns none
when the fuel runs out before the loop exits. Used to state termination
and divergence of the tick loop itself. -/
def drainFuel (rate : ℚ) : ℕ → ℚ → Option (ℕ × ℚ)
  | 0, _ => none
  | fuel + 1, acc =>
    if rate ≤ acc then
      match drainFuel rate fuel (acc - rate) with
      | none => none
      | some (n, a) => some (n + 1, a)
    else
      some (0, acc)

/-- PackedSchedule.run from the source, for one owner. The world and
resources are reduced to the optional Time reading (elapsed seconds since
the previous driver tick); the executor set-up call and the pipeline
passes are recorded in the returned trace. A missing Time reading under a
Fixed policy panics, modelled as none. -/
def PackedSchedule.run (p : PackedSchedule) (time : Option ℚ) :
    Option (PackedSchedule × List Ev) :=
  match p.ty with
  | ScheduleType.Always => some (p, [Ev.init, Ev.pass])
  | ScheduleType.Fixed rate acc =>
    match time with
    | none => none
    | some dt =>
      let r := fixedDrain rate (acc + dt)
      some ({ p with ty := ScheduleType.Fixed rate r.2 },
            Ev.init :: List.replicate r.1 Ev.pass)

/-- get_dummy from the source: keep field 0 (the ScheduleType, including a
Fixed accumulator) and take the remaining fields from Default. -/
def PackedSchedule.get_dummy (p : PackedSchedule) : PackedSchedule :=
  { ty := p.ty, sched := Schedule.mkDefault }

/-- frame_percent from the source: 1.0 for Always, and
min(1.0, max(0.0, accumulator / rate)) for Fixed. -/
def PackedSchedule.frame_percent (p : PackedSchedule) : ℚ :=
  match p.ty with
  | ScheduleType.Always => 1
  | ScheduleType.Fixed rate acc => min 1 (max 0 (acc / rate))

/-- ScheduleRunner(pub PackedSchedule), the resource/component wrapper. -/
structure ScheduleRunner where
  packed : PackedSchedule
deriving DecidableEq, Repr

/-- The canonical stage list installed by add_default_stages. -/
def defaultStageNames : List String :=
  ["first", "pre_event", "event", "pre_update", "update", "post_update", "last"]

/-- Schedule.add_stage: append a stage name. -/
def Schedule.add_stage (s : Schedule) (n : String) : Schedule :=
  ⟨s.stages ++ [n], s.systems⟩

/-- Schedule.add_system_to_stage: register a system into a named stage. -/
def Schedule.add_system_to_stage (s : Schedule) (stage : String) (sys : ℕ) : Schedule :=
  ⟨s.stages, s.systems ++ [(stage, sys)]⟩

/-- ScheduleRunner.add_default_stages from the source. -/
def ScheduleRunner.add_default_stages (r : ScheduleRunner) : ScheduleRunner :=
  ⟨⟨r.packed.ty, ⟨r.packed.sched.stages ++ defaultStageNames, r.packed.sched.systems⟩⟩⟩

/-- ScheduleRunner::from_rate: a Fixed runner with zero accumulator and the
default stages. -/
def ScheduleRunner.from_rate (rate : ℚ) : ScheduleRunner :=
  ScheduleRunner.add_default_stages ⟨⟨ScheduleType.Fixed rate 0, Schedule.mkDefault⟩⟩

/-- ScheduleRunner::from_rate_inv: runs rate times per second. -/
def ScheduleRunner.from_rate_inv (rate : ℚ) : ScheduleRunner :=
  ScheduleRunner.from_rate (1 / rate)

/-- ScheduleRunner.add_system: register into the update stage. -/
def ScheduleRunner.add_system (r : ScheduleRunner) (sys : ℕ) : ScheduleRunner :=
  ⟨⟨r.packed.ty, r.packed.sched.add_system_to_stage ("update") sys⟩⟩

/-- ScheduleRunner.frame_percent delegates to the packed schedule. -/
def ScheduleRunner.frame_percent (r : ScheduleRunner) : ℚ :=
  r.packed.frame_percent

/-- Sequence of run calls, one elapsed value per call, totalling the passes:
the repeated-advance experiment of the spec. -/
def runSeq (p : PackedSchedule) : List ℚ → Option (PackedSchedule × ℕ)
  | [] => some (p, 0)
  | e :: es =>
    match p.run (some e) with
    | none => none
    | some (q, evs) =>
      match runSeq q es with
      | none => none
      | some (q2, n) => some (q2, passCount evs + n)

/-- Modelled from the spec: the trace discipline claimed by C9, namely that
every pass is directly preceded by its own executor set-up event. Each
init event licenses at most the single pass immediately following it. -/
def specEachPassOwnInit : List Ev → Bool
  | [] => true
  | Ev.pass :: _ => false
  | Ev.init :: Ev.pass :: rest => specEachPassOwnInit rest
  | Ev.init :: rest => specEachPassOwnInit rest

/-- The world state seen by schedule_runner_system: the optional global
ScheduleRunner resource, the optional Time resource, the entities carrying
a ScheduleRunner component, and an abstract payload standing for all other
world data that pipeline systems may mutate. -/
structure AppState where
  runnerRes : Option ScheduleRunner
  time : Option ℚ
  entities : List (ℕ × ScheduleRunner)
  payload : ℕ
deriving DecidableEq, Repr

/-- PackedSchedule.run against a full AppState: the pipeline passes are an
abstract world transformation step, applied once per pass; the Time
reading is taken from the state once, before the tick loop, as in the
source. -/
def PackedSchedule.runW (step : AppState → AppState) (p : PackedSchedule)
    (s : AppState) : Option (PackedSchedule × AppState) :=
  match p.ty with
  | ScheduleType.Always => some (p, step s)
  | ScheduleType.Fixed rate acc =>
    match s.time with
    | none => none
    | some dt =>
      let r := fixedDrain rate (acc + dt)
      some ({ p with ty := ScheduleType.Fixed rate r.2 }, step^[r.1] s)

/-- The advance of one packed schedule by one Time reading: Always is
unchanged, Fixed accumulates and drains. Statement-side companion of runW. -/
def advOf (p : PackedSchedule) (dt : ℚ) : PackedSchedule :=
  match p.ty with
  | ScheduleType.Always => p
  | ScheduleType.Fixed rate acc =>
    { p with ty := ScheduleType.Fixed rate (fixedDrain rate (acc + dt)).2 }

/-- A pipeline step that does not structurally disturb the owner slots or
the clock: it leaves the resource slot, the entity set and the Time
reading as they are (the payload may change freely). -/
def preservesOwners (step : AppState → AppState) : Prop :=
  ∀ s, (step s).runnerRes = s.runnerRes ∧ (step s).entities = s.entities ∧
    (step s).time = s.time

/-- A packed schedule whose Fixed rate, if any, is positive (the region in
which the source tick loop terminates). -/
def PackedSchedule.posRate (p : PackedSchedule) : Prop :=
  ∀ r a, p.ty = ScheduleType.Fixed r a → 0 < r

/-- The resource half of schedule_runner_system: if the ScheduleRunner
resource exists, swap it for its dummy, run the detached instance, then
write it back through the resource slot; a missing slot at write-back is
the unwrap panic of the source. -/
def runResourcePart (step : AppState → AppState) (s : AppState) : Option AppState :=
  match s.runnerRes with
  | none => some s
  | some runner =>
    let detached := runner.packed
    let s1 := { s with runnerRes := some ⟨detached.get_dummy⟩ }
    match detached.runW step s1 with
    | none => none
    | some (p2, s2) =>
      match s2.runnerRes with
      | none => none
      | some _ => some { s2 with runnerRes := some ⟨p2⟩ }

/-- Run every detached component schedule in order, threading the world
state, and collect the advanced instances keyed by owner entity. -/
def runEntities (step : AppState → AppState) :
    List (ℕ × PackedSchedule) → AppState → Option (List (ℕ × PackedSchedule) × AppState)
  | [], s => some ([], s)
  | (e, p) :: rest, s =>
    match p.runW step s with
    | none => none
    | some (p2, s2) =>
      match runEntities step rest s2 with
      | none => none
      | some (m, s3) => some ((e, p2) :: m, s3)

/-- HashMap.remove of the source: take the entry with the given key out of
the map, returning it and the rest, or none when absent. -/
def lookupRemove (e : ℕ) : List (ℕ × PackedSchedule) →
    Option (PackedSchedule × List (ℕ × PackedSchedule))
  | [] => none
  | (k, p) :: rest =>
    if k = e then some (p, rest)
    else
      match lookupRemove e rest with
      | none => none
      | some (q, rest2) => some (q, (k, p) :: rest2)

/-- The reattach loop of the source: for every entity currently carrying a
ScheduleRunner, take its detached instance out of the map and install it;
a missing map entry is the unwrap panic, modelled as none. Entries left in
the map at the end are silently dropped, as in the source. -/
def reattachAll (m : List (ℕ × PackedSchedule)) :
    List (ℕ × ScheduleRunner) →
    Option (List (ℕ × ScheduleRunner) × List (ℕ × PackedSchedule))
  | [] => some ([], m)
  | (e, _) :: rest =>
    match lookupRemove e m with
    | none => none
    | some (p, m2) =>
      match reattachAll m2 rest with
      | none => none
      | some (ents, m3) => some ((e, ⟨p⟩) :: ents, m3)

/-- schedule_runner_system from the source: run the global resource
instance through the detach protocol, then detach every component
instance (replacing each with its dummy), run them all, and reattach by
owner entity. -/
def schedule_runner_system (step : AppState → AppState) (s : AppState) :
    Option AppState :=
  match runResourcePart step s with
  | none => none
  | some s1 =>
    let entMap := s1.entities.map fun er => (er.1, er.2.packed)
    let s2 := { s1 with
      entities := s1.entities.map fun er => (er.1, ⟨er.2.packed.get_dummy⟩) }
    match runEntities step entMap s2 with
    | none => none
    | some (m, s3) =>
      match reattachAll m s3.entities with
      | none => none
      | some (ents, _) => some { s3 with entities := ents }

/-! ## Helper lemmas -/

theorem passCount_init (l : List Ev) : passCount (Ev.init :: l) = passCount l := rfl

theorem passCount_replicate (n : ℕ) : passCount (List.replicate n Ev.pass) = n := by
  induction n with
  | zero => rfl
  | succ n ih => simpa [List.replicate_succ, passCount] using ih

theorem floor_div_sub_mul (x rate : ℚ) (k : ℤ) (hr : rate ≠ 0) :
    ⌊(x - (k : ℚ) * rate) / rate⌋ = ⌊x / rate⌋ - k := by
  have h : (x - (k : ℚ) * rate) / rate = x / rate - (k : ℚ) := by
    field_simp
    ring
  rw [h, Int.floor_sub_int]

theorem fixedDrain_spec_aux (rate : ℚ) (hr : 0 < rate) :
    ∀ (n : ℕ) (acc : ℚ), (⌊acc / rate⌋).toNat ≤ n →
      fixedDrain rate acc =
        ((⌊acc / rate⌋).toNat, acc - ((⌊acc / rate⌋).toNat : ℚ) * rate) := by
  have hne : rate ≠ 0 := ne_of_gt hr
  intro n
  induction n with
  | zero =>
    intro acc hle
    have h0 : ⌊acc / rate⌋ ≤ 0 := by omega
    have hlt : acc < rate := by
      by_contra hcon
      push_neg at hcon
      have : (1 : ℤ) ≤ ⌊acc / rate⌋ :=
        Int.le_floor.mpr (by exact_mod_cast (one_le_div hr).mpr hcon)
      omega
    have hguard : ¬(0 < rate ∧ rate ≤ acc) := by
      rintro ⟨-, hra⟩
      exact absurd hra (not_le.mpr hlt)
    rw [fixedDrain, dif_neg hguard]
    have ht : (⌊acc / rate⌋).toNat = 0 := by omega
    rw [ht]
    norm_num
  | succ n ih =>
    intro acc hle
    by_cases hra : rate ≤ acc
    · have h1 : ⌊(acc - rate) / rate⌋ = ⌊acc / rate⌋ - 1 := by
        have := floor_div_sub_mul acc rate 1 hne
        simpa using this
      have h4 : (1 : ℤ) ≤ ⌊acc / rate⌋ :=
        Int.le_floor.mpr (by exact_mod_cast (one_le_div hr).mpr hra)
      have hrec := ih (acc - rate) (by omega)
      rw [fixedDrain, dif_pos ⟨hr, hra⟩]
      rw [hrec]
      have hn1 : (⌊(acc - rate) / rate⌋).toNat + 1 = (⌊acc / rate⌋).toNat := by omega
      refine Prod.ext ?_ ?_
      · simpa using hn1
      · show acc - rate - ((⌊(acc - rate) / rate⌋).toNat : ℚ) * rate =
          acc - ((⌊acc / rate⌋).toNat : ℚ) * rate
        have hc : ((⌊(acc - rate) / rate⌋).toNat : ℚ) + 1 = ((⌊acc / rate⌋).toNat : ℚ) := by
          exact_mod_cast congrArg (fun m : ℕ => (m : ℚ)) hn1
        nlinarith [hc]
    · have hguard : ¬(0 < rate ∧ rate ≤ acc) := by
        rintro ⟨-, h⟩
        exact hra h
      have h0 : ⌊acc / rate⌋ ≤ 0 := by
        by_contra hcon
        push_neg at hcon
        have : (1 : ℚ) ≤ acc / rate := by
          exact_mod_cast le_trans (by exact_mod_cast hcon) (Int.floor_le (acc / rate))
        exact hra ((one_le_div hr).mp this)
      rw [fixedDrain, dif_neg hguard]
      have ht : (⌊acc / rate⌋).toNat = 0 := by omega
      rw [ht]
      norm_num

theorem fixedDrain_spec (rate : ℚ) (hr : 0 < rate) (acc : ℚ) :
    fixedDrain rate acc =
      ((⌊acc / rate⌋).toNat, acc - ((⌊acc / rate⌋).toNat : ℚ) * rate) :=
  fixedDrain_spec_aux rate hr (⌊acc / rate⌋).toNat acc le_rfl

theorem fixedDrain_count (rate : ℚ) (hr : 0 < rate) (acc : ℚ) :
    (fixedDrain rate acc).1 = (⌊acc / rate⌋).toNat := by
  rw [fixedDrain_spec rate hr acc]

theorem fixedDrain_rem (rate : ℚ) (hr : 0 < rate) (acc : ℚ) (ha : 0 ≤ acc) :
    (fixedDrain rate acc).2 = acc - ((⌊acc / rate⌋ : ℤ) : ℚ) * rate := by
  rw [fixedDrain_spec rate hr acc]
  have hfl : 0 ≤ ⌊acc / rate⌋ := Int.floor_nonneg.mpr (div_nonneg ha hr.le)
  have : ((⌊acc / rate⌋).toNat : ℚ) = ((⌊acc / rate⌋ : ℤ) : ℚ) := by
    exact_mod_cast congrArg (fun z : ℤ => (z : ℚ)) (Int.toNat_of_nonneg hfl)
  rw [this]

theorem fixedDrain_bounds (rate acc : ℚ) (hr : 0 < rate) (ha : 0 ≤ acc) :
    0 ≤ (fixedDrain rate acc).2 ∧ (fixedDrain rate acc).2 < rate := by
  have hne : rate ≠ 0 := ne_of_gt hr
  rw [fixedDrain_rem rate hr acc ha]
  have hfr : acc - ((⌊acc / rate⌋ : ℤ) : ℚ) * rate = rate * Int.fract (acc / rate) := by
    rw [Int.fract, mul_sub, mul_div_cancel₀ _ hne]
    ring
  rw [hfr]
  constructor
  · exact mul_nonneg hr.le (Int.fract_nonneg _)
  · calc rate * Int.fract (acc / rate) < rate * 1 :=
        (mul_lt_mul_left hr).mpr (Int.fract_lt_one _)
    _ = rate := mul_one rate

theorem fixedDrain_small (rate acc : ℚ) (h : ¬ rate ≤ acc) :
    fixedDrain rate acc = (0, acc) := by
  rw [fixedDrain, dif_neg]
  rintro ⟨-, hra⟩
  exact h hra

theorem run_fixed_eq (rate acc : ℚ) (s : Schedule) (e : ℚ) :
    PackedSchedule.run ⟨ScheduleType.Fixed rate acc, s⟩ (some e) =
      some (⟨ScheduleType.Fixed rate (fixedDrain rate (acc + e)).2, s⟩,
        Ev.init :: List.replicate (fixedDrain rate (acc + e)).1 Ev.pass) := rfl

theorem run_always_eq (p : PackedSchedule) (h : p.ty = ScheduleType.Always)
    (t : Option ℚ) : p.run t = some (p, [Ev.init, Ev.pass]) := by
  cases p with
  | mk ty sched =>
    cases h
    rfl

theorem drainFuel_complete (rate : ℚ) (hr : 0 < rate) :
    ∀ (n : ℕ) (acc : ℚ), (⌊acc / rate⌋).toNat < n →
      drainFuel rate n acc = some (fixedDrain rate acc) := by
  have hne : rate ≠ 0 := ne_of_gt hr
  intro n
  induction n with
  | zero => intro acc h; omega
  | succ n ih =>
    intro acc h
    by_cases hra : rate ≤ acc
    · have h1 : ⌊(acc - rate) / rate⌋ = ⌊acc / rate⌋ - 1 := by
        have := floor_div_sub_mul acc rate 1 hne
        simpa using this
      have h4 : (1 : ℤ) ≤ ⌊acc / rate⌋ :=
        Int.le_floor.mpr (by exact_mod_cast (one_le_div hr).mpr hra)
      have hrec := ih (acc - rate) (by omega)
      rcases hfd : fixedDrain rate (acc - rate) with ⟨c, a⟩
      rw [hfd] at hrec
      have hout : fixedDrain rate acc = (c + 1, a) := by
        rw [fixedDrain, dif_pos ⟨hr, hra⟩, hfd]
      rw [hout]
      simp [drainFuel, if_pos hra, hrec]
    · have hout : fixedDrain rate acc = (0, acc) := fixedDrain_small rate acc hra
      rw [hout]
      simp [drainFuel, if_neg hra]

theorem drainFuel_diverge (rate : ℚ) (hr : rate ≤ 0) :
    ∀ (fuel : ℕ) (acc : ℚ), rate ≤ acc → drainFuel rate fuel acc = none := by
  intro fuel
  induction fuel with
  | zero => intro acc _; rfl
  | succ n ih =>
    intro acc hra
    have hnext : rate ≤ acc - rate := by linarith
    simp [drainFuel, if_pos hra, ih (acc - rate) hnext]

theorem advOf_always (p : PackedSchedule) (h : p.ty = ScheduleType.Always) (dt : ℚ) :
    advOf p dt = p := by
  cases p with
  | mk ty sched =>
    cases h
    rfl

theorem advOf_fixed (r a dt : ℚ) (s : Schedule) :
    advOf ⟨ScheduleType.Fixed r a, s⟩ dt =
      ⟨ScheduleType.Fixed r (fixedDrain r (a + dt)).2, s⟩ := rfl

theorem advOf_sched (p : PackedSchedule) (dt : ℚ) : (advOf p dt).sched = p.sched := by
  cases p with
  | mk ty sched => cases ty <;> rfl

theorem advOf_rate (p : PackedSchedule) (dt : ℚ) (r a : ℚ)
    (h : p.ty = ScheduleType.Fixed r a) :
    (advOf p dt).ty = ScheduleType.Fixed r (fixedDrain r (a + dt)).2 := by
  cases p with
  | mk ty sched =>
    cases h
    rfl

theorem iterate_preserves (step : AppState → AppState) (hstep : preservesOwners step) :
    ∀ (n : ℕ) (s : AppState), (step^[n] s).runnerRes = s.runnerRes ∧
      (step^[n] s).entities = s.entities ∧ (step^[n] s).time = s.time := by
  intro n
  induction n with
  | zero => intro s; exact ⟨rfl, rfl, rfl⟩
  | succ n ih =>
    intro s
    rw [Function.iterate_succ_apply']
    obtain ⟨i1, i2, i3⟩ := ih s
    obtain ⟨p1, p2, p3⟩ := hstep (step^[n] s)
    exact ⟨p1.trans i1, p2.trans i2, p3.trans i3⟩

theorem runW_spec (step : AppState → AppState) (hstep : preservesOwners step)
    (p : PackedSchedule) (s : AppState) (dt : ℚ) (ht : s.time = some dt) :
    ∃ s2, p.runW step s = some (advOf p dt, s2) ∧ s2.runnerRes = s.runnerRes ∧
      s2.entities = s.entities ∧ s2.time = s.time := by
  cases p with
  | mk ty sched =>
    cases ty with
    | Always =>
      refine ⟨step s, rfl, ?_, ?_, ?_⟩
      · exact (hstep s).1
      · exact (hstep s).2.1
      · exact (hstep s).2.2
    | Fixed rate acc =>
      obtain ⟨i1, i2, i3⟩ :=
        iterate_preserves step hstep (fixedDrain rate (acc + dt)).1 s
      refine ⟨step^[(fixedDrain rate (acc + dt)).1] s, ?_, i1, i2, i3⟩
      simp [PackedSchedule.runW, ht, advOf]

theorem runResourcePart_spec (step : AppState → AppState) (s : AppState) (dt : ℚ)
    (hstep : preservesOwners step) (ht : s.time = some dt) :
    ∃ s1, runResourcePart step s = some s1 ∧
      s1.runnerRes = s.runnerRes.map (fun r => ⟨advOf r.packed dt⟩) ∧
      s1.entities = s.entities ∧ s1.time = s.time := by
  cases hres : s.runnerRes with
  | none =>
    refine ⟨s, ?_, ?_, rfl, rfl⟩
    · simp [runResourcePart, hres]
    · simp [hres]
  | some runner =>
    obtain ⟨s2, hrun, h1, h2, h3⟩ :=
      runW_spec step hstep runner.packed
        { s with runnerRes := some ⟨runner.packed.get_dummy⟩ } dt ht
    refine ⟨{ s2 with runnerRes := some ⟨advOf runner.packed dt⟩ }, ?_, ?_, ?_, ?_⟩
    · simp only [runResourcePart, hres, hrun]
      simp at h1
      rw [h1]
    · simp [hres]
    · simpa using h2
    · simpa using h3

theorem runEntities_spec (step : AppState → AppState) (dt : ℚ)
    (hstep : preservesOwners step) :
    ∀ (m : List (ℕ × PackedSchedule)) (s : AppState), s.time = some dt →
      ∃ s2, runEntities step m s = some (m.map (fun ep => (ep.1, advOf ep.2 dt)), s2) ∧
        s2.runnerRes = s.runnerRes ∧ s2.entities = s.entities ∧ s2.time = s.time := by
  intro m
  induction m with
  | nil =>
    intro s ht
    exact ⟨s, rfl, rfl, rfl, rfl⟩
  | cons ep rest ih =>
    intro s ht
    obtain ⟨e, p⟩ := ep
    obtain ⟨s2, hrun, h1, h2, h3⟩ := runW_spec step hstep p s dt ht
    obtain ⟨s3, hrec, g1, g2, g3⟩ := ih s2 (h3.trans ht)
    refine ⟨s3, ?_, g1.trans h1, g2.trans h2, g3.trans h3⟩
    simp [runEntities, hrun, hrec]

theorem lookupRemove_head (e : ℕ) (p : PackedSchedule)
    (m : List (ℕ × PackedSchedule)) :
    lookupRemove e ((e, p) :: m) = some (p, m) := by
  simp [lookupRemove]

theorem reattachAll_aligned :
    ∀ (ents : List (ℕ × ScheduleRunner)) (m : List (ℕ × PackedSchedule)),
      ents.map Prod.fst = m.map Prod.fst →
      reattachAll m ents = some (m.map (fun ep => (ep.1, ⟨ep.2⟩)), []) := by
  intro ents
  induction ents with
  | nil =>
    intro m hm
    have : m = [] := by
      cases m with
      | nil => rfl
      | cons a l => simp at hm
    subst this
    rfl
  | cons er rest ih =>
    intro m hm
    cases m with
    | nil => simp at hm
    | cons kp m2 =>
      obtain ⟨e, r⟩ := er
      obtain ⟨k, p⟩ := kp
      simp only [List.map_cons, List.cons.injEq] at hm
      obtain ⟨hek, hrest⟩ := hm
      subst hek
      rw [show reattachAll ((e, p) :: m2) ((e, r) :: rest) =
        (match lookupRemove e ((e, p) :: m2) with
          | none => none
          | some (q, m3) =>
            match reattachAll m3 rest with
            | none => none
            | some (ents2, m4) => some ((e, ⟨q⟩) :: ents2, m4)) from rfl]
      rw [lookupRemove_head]
      simp [ih m2 hrest]

theorem schedule_runner_system_spec (step : AppState → AppState) (s : AppState)
    (dt : ℚ) (hstep : preservesOwners step) (ht : s.time = some dt) :
    ∃ s4, schedule_runner_system step s = some s4 ∧
      s4.runnerRes = s.runnerRes.map (fun r => ⟨advOf r.packed dt⟩) ∧
      s4.entities = s.entities.map (fun er => (er.1, ⟨advOf er.2.packed dt⟩)) ∧
      s4.time = s.time := by
  obtain ⟨s1, h1run, h1res, h1ent, h1time⟩ :=
    runResourcePart_spec step s dt hstep ht
  obtain ⟨s3, h2run, h2res, h2ent, h2time⟩ :=
    runEntities_spec step dt hstep (s1.entities.map fun er => (er.1, er.2.packed))
      { s1 with entities := s1.entities.map fun er => (er.1, ⟨er.2.packed.get_dummy⟩) }
      (by simpa using h1time.trans ht)
  simp only [] at h2res h2ent h2time
  have halign :
      (s3.entities).map Prod.fst =
        ((s1.entities.map fun er => (er.1, er.2.packed)).map
          (fun ep => (ep.1, advOf ep.2 dt))).map Prod.fst := by
    rw [h2ent]
    simp [List.map_map, Function.comp]
  have h3run := reattachAll_aligned s3.entities
    ((s1.entities.map fun er => (er.1, er.2.packed)).map fun ep => (ep.1, advOf ep.2 dt))
    halign
  have hmain : schedule_runner_system step s =
      some { s3 with entities :=
        (((s1.entities.map fun er => (er.1, er.2.packed)).map
          fun ep => (ep.1, advOf ep.2 dt)).map fun ep => (ep.1, ⟨ep.2⟩)) } := by
    simp only [schedule_runner_system, h1run, h2run, h3run]
  refine ⟨_, hmain, ?_, ?_, ?_⟩
  · simp only []
    rw [h2res, h1res]
  · simp only []
    rw [h1ent]
    simp [List.map_map, Function.comp]
  · simp only []
    rw [h2time, h1time]

theorem runSeq_cons_fixed (rate acc e : ℚ) (s : Schedule) (es : List ℚ) :
    runSeq ⟨ScheduleType.Fixed rate acc, s⟩ (e :: es) =
      match runSeq ⟨ScheduleType.Fixed rate (fixedDrain rate (acc + e)).2, s⟩ es with
      | none => none
      | some (q2, n) =>
        some (q2,
          passCount (Ev.init :: List.replicate (fixedDrain rate (acc + e)).1 Ev.pass) + n) :=
  rfl

theorem runSeq_fixed_spec (rate : ℚ) (hr : 0 < rate) (s : Schedule) :
    ∀ (es : List ℚ) (acc : ℚ), 0 ≤ acc → acc < rate → (∀ e ∈ es, 0 ≤ e) →
      runSeq ⟨ScheduleType.Fixed rate acc, s⟩ es =
        some (⟨ScheduleType.Fixed rate
            (acc + es.sum - ((⌊(acc + es.sum) / rate⌋ : ℤ) : ℚ) * rate), s⟩,
          (⌊(acc + es.sum) / rate⌋).toNat) := by
  have hne : rate ≠ 0 := ne_of_gt hr
  intro es
  induction es with
  | nil =>
    intro acc h0 h1 _
    have hf : ⌊(acc + ([] : List ℚ).sum) / rate⌋ = 0 := by
      rw [List.sum_nil, add_zero]
      rw [Int.floor_eq_zero_iff]
      constructor
      · exact div_nonneg h0 hr.le
      · exact (div_lt_one hr).mpr h1
    rw [show runSeq ⟨ScheduleType.Fixed rate acc, s⟩ [] =
      some (⟨ScheduleType.Fixed rate acc, s⟩, 0) from rfl, hf]
    norm_num
  | cons e rest ih =>
    intro acc h0 h1 hall
    have he : 0 ≤ e := hall e (by simp)
    have hrest : ∀ x ∈ rest, 0 ≤ x := fun x hx => hall x (by simp [hx])
    have hS : 0 ≤ rest.sum := List.sum_nonneg hrest
    have hae : 0 ≤ acc + e := by linarith
    have hk0 : 0 ≤ ⌊(acc + e) / rate⌋ := Int.floor_nonneg.mpr (div_nonneg hae hr.le)
    have hrem := fixedDrain_rem rate hr (acc + e) hae
    have hcnt := fixedDrain_count rate hr (acc + e)
    have hb := fixedDrain_bounds rate (acc + e) hr hae
    rw [hrem] at hb
    have ihx := ih (acc + e - ((⌊(acc + e) / rate⌋ : ℤ) : ℚ) * rate) hb.1 hb.2 hrest
    rw [runSeq_cons_fixed, hrem, hcnt, ihx]
    have hshift : ⌊(acc + e - ((⌊(acc + e) / rate⌋ : ℤ) : ℚ) * rate + rest.sum) / rate⌋
        = ⌊(acc + (e + rest.sum)) / rate⌋ - ⌊(acc + e) / rate⌋ := by
      have h := floor_div_sub_mul (acc + (e + rest.sum)) rate (⌊(acc + e) / rate⌋) hne
      rw [show acc + (e + rest.sum) - ((⌊(acc + e) / rate⌋ : ℤ) : ℚ) * rate
          = acc + e - ((⌊(acc + e) / rate⌋ : ℤ) : ℚ) * rate + rest.sum by ring] at h
      exact h
    have hM : ⌊(acc + e) / rate⌋ ≤ ⌊(acc + (e + rest.sum)) / rate⌋ := by
      apply Int.floor_le_floor
      exact (div_le_div_right hr).mpr (by linarith)
    simp only [passCount_init, passCount_replicate, List.sum_cons]
    rw [hshift]
    refine congrArg some (Prod.ext ?_ ?_)
    · exact congrArg (fun a => PackedSchedule.mk (ScheduleType.Fixed rate a) s)
        (by push_cast; ring)
    · show (⌊(acc + e) / rate⌋).toNat +
        (⌊(acc + (e + rest.sum)) / rate⌋ - ⌊(acc + e) / rate⌋).toNat =
        (⌊(acc + (e + rest.sum)) / rate⌋).toNat
      omega

/-! ## Claim theorems -/

/-- C1 (counterexample): with rate 1, accumulator 0 and elapsed -2 the run
performs zero passes, while floor(accumulator / rate) after the add is -2,
so the claimed identity run_count = floor(accumulator / rate) fails. -/
theorem C1_counterexample :
    PackedSchedule.run ⟨ScheduleType.Fixed 1 0, Schedule.mkDefault⟩ (some (-2)) =
      some (⟨ScheduleType.Fixed 1 (-2), Schedule.mkDefault⟩, [Ev.init]) ∧
    ⌊((0 : ℚ) + -2) / 1⌋ = -2 ∧ ((passCount [Ev.init] : ℤ) ≠ -2) := by
  have h0 : ((0 : ℚ) + -2) = -2 := by norm_num
  refine ⟨?_, ?_, by norm_num [passCount]⟩
  · rw [run_fixed_eq]
    rw [h0, fixedDrain_small 1 (-2) (by norm_num)]
    rfl
  · rw [h0]
    norm_num

/-- C1 (amended): for a Fixed(rate, accumulator) policy with rate > 0, one
run call with elapsed e first adds e to the accumulator and then, provided
the updated accumulator is non-negative, executes exactly
floor(accumulator / rate) passes while subtracting that many rates, so all
due passes run in the single call; for a negative updated accumulator the
pass count is zero, the non-negative clamp of the floor. -/
theorem C1_fixed_run_floor (rate acc e : ℚ) (s : Schedule) (hr : 0 < rate)
    (h : 0 ≤ acc + e) :
    PackedSchedule.run ⟨ScheduleType.Fixed rate acc, s⟩ (some e) =
      some (⟨ScheduleType.Fixed rate
          (acc + e - ((⌊(acc + e) / rate⌋ : ℤ) : ℚ) * rate), s⟩,
        Ev.init :: List.replicate (⌊(acc + e) / rate⌋).toNat Ev.pass) ∧
    (((⌊(acc + e) / rate⌋).toNat : ℤ) = ⌊(acc + e) / rate⌋) := by
  constructor
  · rw [run_fixed_eq, fixedDrain_count rate hr, fixedDrain_rem rate hr _ h]
  · exact Int.toNat_of_nonneg (Int.floor_nonneg.mpr (div_nonneg h hr.le))

/-- C1 witness: Fixed(1, 0) with elapsed 3.5 runs 3 passes and leaves
accumulator 0.5. -/
theorem C1_witness :
    PackedSchedule.run ⟨ScheduleType.Fixed 1 0, Schedule.mkDefault⟩ (some (7/2)) =
      some (⟨ScheduleType.Fixed 1 (1/2), Schedule.mkDefault⟩,
        Ev.init :: List.replicate 3 Ev.pass) := by
  have h := (C1_fixed_run_floor 1 0 (7/2) Schedule.mkDefault (by norm_num) (by norm_num)).1
  norm_num at h
  convert h using 3

/-- C2 (counterexample): when a pipeline pass deletes the owning entity
mid-tick, schedule_runner_system completes without any fatal failure and
the detached instance is silently dropped, contradicting the claim that a
missing owner slot at reattach time is a fatal error. -/
theorem C2_counterexample :
    schedule_runner_system (fun s => { s with entities := [] })
        ⟨none, none, [(0, ⟨⟨ScheduleType.Always, Schedule.mkDefault⟩⟩)], 0⟩ =
      some ⟨none, none, [], 0⟩ ∧
    (some (⟨none, none, [], 0⟩ : AppState) ≠ none) := by
  constructor
  · rfl
  · simp

/-- C2 (amended): for a pipeline step that leaves the owner slots and the
clock in place, and a present Time reading, schedule_runner_system
detaches every owner instance, runs each exactly once, and reattaches the
advanced instance into the same owner slot: the post-tick policy is the
pre-tick one with only the accumulator advanced, and the registered
steps are unchanged. When an owner disappears mid-tick its entity-held
instance is silently dropped rather than causing a fatal failure; only
the global resource slot faults fatally at write-back. -/
theorem C2_detach_run_reattach (step : AppState → AppState) (s : AppState) (dt : ℚ)
    (hstep : preservesOwners step) (ht : s.time = some dt)
    (hres : ∀ r, s.runnerRes = some r → r.packed.posRate)
    (hent : ∀ er ∈ s.entities, (er.2).packed.posRate) :
    ∃ s4, schedule_runner_system step s = some s4 ∧
      s4.runnerRes = s.runnerRes.map (fun r => ⟨advOf r.packed dt⟩) ∧
      s4.entities = s.entities.map (fun er => (er.1, ⟨advOf er.2.packed dt⟩)) ∧
      s4.time = s.time ∧
      (∀ p : PackedSchedule, (advOf p dt).sched = p.sched) ∧
      (∀ p : PackedSchedule, p.ty = ScheduleType.Always → advOf p dt = p) ∧
      (∀ (p : PackedSchedule) (r a : ℚ), p.ty = ScheduleType.Fixed r a →
        (advOf p dt).ty = ScheduleType.Fixed r (fixedDrain r (a + dt)).2) := by
  obtain ⟨s4, h1, h2, h3, h4⟩ := schedule_runner_system_spec step s dt hstep ht
  exact ⟨s4, h1, h2, h3, h4, fun p => advOf_sched p dt,
    fun p h => advOf_always p h dt, fun p r a h => advOf_rate p dt r a h⟩

/-- C2 witness: one Fixed global resource and one Always entity instance,
identity pipeline step, elapsed 2.5. -/
theorem C2_witness :
    ∃ s4, schedule_runner_system id
        ⟨some ⟨⟨ScheduleType.Fixed 1 0, Schedule.mkDefault⟩⟩, some (5/2),
          [(0, ⟨⟨ScheduleType.Always, Schedule.mkDefault⟩⟩)], 7⟩ = some s4 ∧
      s4.runnerRes = some ⟨advOf ⟨ScheduleType.Fixed 1 0, Schedule.mkDefault⟩ (5/2)⟩ ∧
      s4.entities = [(0, ⟨advOf ⟨ScheduleType.Always, Schedule.mkDefault⟩ (5/2)⟩)] ∧
      s4.time = some (5/2) := by
  obtain ⟨s4, h1, h2, h3, h4, -⟩ :=
    C2_detach_run_reattach id
      ⟨some ⟨⟨ScheduleType.Fixed 1 0, Schedule.mkDefault⟩⟩, some (5/2),
        [(0, ⟨⟨ScheduleType.Always, Schedule.mkDefault⟩⟩)], 7⟩ (5/2)
      (fun s => ⟨rfl, rfl, rfl⟩) rfl
      (by
        intro r h
        injection h with h2
        subst h2
        intro rr a hty
        cases hty
        norm_num)
      (by
        intro er her
        simp at her
        subst her
        simp [PackedSchedule.posRate])
  exact ⟨s4, h1, by simpa using h2, by simpa using h3, by simpa using h4⟩

/-- C3 (counterexample): get_dummy on a Fixed(2, 1.5) instance yields a
dummy whose policy still holds accumulator 1.5, so the current accumulator
is carried forward, contrary to the claim. -/
theorem C3_counterexample :
    PackedSchedule.get_dummy ⟨ScheduleType.Fixed 2 (3/2), ⟨["update"], [(("update"), 5)]⟩⟩ =
      ⟨ScheduleType.Fixed 2 (3/2), Schedule.mkDefault⟩ ∧ ((3/2 : ℚ) ≠ 0) :=
  ⟨rfl, by norm_num⟩

/-- C3 (amended): the dummy carries exactly the current Timing Policy of
the original, including the current accumulator of a Fixed policy, paired
with a fresh empty Pipeline Executor; neither an accumulator reset nor a
policy reset to the Always default occurs. -/
theorem C3_get_dummy_keeps_policy (p : PackedSchedule) :
    p.get_dummy.ty = p.ty ∧ p.get_dummy.sched = Schedule.mkDefault :=
  ⟨rfl, rfl⟩

/-- C4 (counterexample): Fixed(1, 0.5) run with elapsed -1 changes the
accumulator to -0.5, which differs from its pre-call value and is
negative, contradicting the unchanged-on-nonpositive-elapsed exception. -/
theorem C4_counterexample :
    PackedSchedule.run ⟨ScheduleType.Fixed 1 (1/2), Schedule.mkDefault⟩ (some (-1)) =
      some (⟨ScheduleType.Fixed 1 (-1/2), Schedule.mkDefault⟩, [Ev.init]) ∧
    ((-1/2 : ℚ) ≠ 1/2) ∧ ¬(0 ≤ (-1/2 : ℚ)) := by
  refine ⟨?_, by norm_num, by norm_num⟩
  rw [run_fixed_eq]
  rw [show ((1/2 : ℚ) + -1) = -1/2 by norm_num,
    fixedDrain_small 1 (-1/2) (by norm_num)]
  rfl

/-- C4 (amended): for rate > 0 and a pre-call accumulator in [0, rate), a
run with elapsed >= 0 leaves the accumulator in [0, rate), while a run
with elapsed <= 0 sets the accumulator to the pre-call value plus the
elapsed (so it is unchanged only for zero elapsed and may go negative). -/
theorem C4_accumulator_invariant (rate acc e : ℚ) (s : Schedule) (hr : 0 < rate)
    (h0 : 0 ≤ acc) (h1 : acc < rate) :
    (0 ≤ e → ∃ acc2 tr,
      PackedSchedule.run ⟨ScheduleType.Fixed rate acc, s⟩ (some e) =
        some (⟨ScheduleType.Fixed rate acc2, s⟩, tr) ∧ 0 ≤ acc2 ∧ acc2 < rate) ∧
    (e ≤ 0 →
      PackedSchedule.run ⟨ScheduleType.Fixed rate acc, s⟩ (some e) =
        some (⟨ScheduleType.Fixed rate (acc + e), s⟩, [Ev.init])) := by
  constructor
  · intro he
    exact ⟨(fixedDrain rate (acc + e)).2, _, run_fixed_eq rate acc s e,
      (fixedDrain_bounds rate (acc + e) hr (by linarith)).1,
      (fixedDrain_bounds rate (acc + e) hr (by linarith)).2⟩
  · intro he
    rw [run_fixed_eq, fixedDrain_small rate (acc + e) (not_le.mpr (by linarith))]
    rfl

/-- C4 witness: Fixed(1, 0.5) with elapsed 2 lands in [0, 1); with elapsed
-0.25 the accumulator becomes 0.25. -/
theorem C4_witness :
    (∃ acc2 tr,
      PackedSchedule.run ⟨ScheduleType.Fixed 1 (1/2), Schedule.mkDefault⟩ (some 2) =
        some (⟨ScheduleType.Fixed 1 acc2, Schedule.mkDefault⟩, tr) ∧
        0 ≤ acc2 ∧ acc2 < 1) ∧
    PackedSchedule.run ⟨ScheduleType.Fixed 1 (1/2), Schedule.mkDefault⟩ (some (-1/4)) =
      some (⟨ScheduleType.Fixed 1 (1/2 + -1/4), Schedule.mkDefault⟩, [Ev.init]) := by
  constructor
  · exact (C4_accumulator_invariant 1 (1/2) 2 Schedule.mkDefault (by norm_num)
      (by norm_num) (by norm_num)).1 (by norm_num)
  · exact (C4_accumulator_invariant 1 (1/2) (-1/4) Schedule.mkDefault (by norm_num)
      (by norm_num) (by norm_num)).2 (by norm_num)

/-- C5: for rate > 0, starting accumulator 0 and any finite list of
non-negative elapsed values, the total number of passes produced by one
run per elapsed value equals floor of the sum divided by the rate,
independently of the split. -/
theorem C5_split_invariance (rate : ℚ) (es : List ℚ) (s : Schedule) (hr : 0 < rate)
    (he : ∀ e ∈ es, 0 ≤ e) :
    (runSeq ⟨ScheduleType.Fixed rate 0, s⟩ es).map (fun r => (r.2 : ℤ)) =
      some ⌊es.sum / rate⌋ := by
  rw [runSeq_fixed_spec rate hr s es 0 le_rfl hr he]
  have hS : 0 ≤ es.sum := List.sum_nonneg he
  simp only [Option.map_some', Option.some.injEq, zero_add]
  exact Int.toNat_of_nonneg (Int.floor_nonneg.mpr (div_nonneg hS hr.le))

/-- C5 witness: Fixed(2, 0) fed 0.5 four times yields exactly one pass,
the floor of 2/2. -/
theorem C5_witness :
    (runSeq ⟨ScheduleType.Fixed 2 0, Schedule.mkDefault⟩
        [1/2, 1/2, 1/2, 1/2]).map (fun r => (r.2 : ℤ)) = some 1 := by
  have h := C5_split_invariance 2 [1/2, 1/2, 1/2, 1/2] Schedule.mkDefault
    (by norm_num) (by intro e hme; simp at hme; norm_num [hme])
  have hsum : ⌊([1/2, 1/2, 1/2, 1/2] : List ℚ).sum / 2⌋ = 1 := by
    norm_num [List.sum_cons]
  rw [hsum] at h
  exact h

/-- C6: an Always instance runs exactly one pass for every Time reading,
including a negative one and a missing one, leaves the instance unchanged
and never fails. -/
theorem C6_always_one (p : PackedSchedule) (h : p.ty = ScheduleType.Always)
    (t : Option ℚ) :
    p.run t = some (p, [Ev.init, Ev.pass]) ∧ passCount [Ev.init, Ev.pass] = 1 :=
  ⟨run_always_eq p h t, rfl⟩

/-- C6 witness: the Always instance at a missing clock and at elapsed -5. -/
theorem C6_witness :
    PackedSchedule.run ⟨ScheduleType.Always, Schedule.mkDefault⟩ none =
      some (⟨ScheduleType.Always, Schedule.mkDefault⟩, [Ev.init, Ev.pass]) ∧
    PackedSchedule.run ⟨ScheduleType.Always, Schedule.mkDefault⟩ (some (-5)) =
      some (⟨ScheduleType.Always, Schedule.mkDefault⟩, [Ev.init, Ev.pass]) :=
  ⟨(C6_always_one ⟨ScheduleType.Always, Schedule.mkDefault⟩ rfl none).1,
    (C6_always_one ⟨ScheduleType.Always, Schedule.mkDefault⟩ rfl (some (-5))).1⟩

/-- C7: frame_percent is 1 for Always and the clamp of accumulator / rate
into [0, 1] for Fixed, its value always lies in [0, 1], it mutates
nothing, and the runner wrapper delegates to it. -/
theorem C7_frame_percent (p : PackedSchedule) :
    0 ≤ p.frame_percent ∧ p.frame_percent ≤ 1 ∧
    (p.ty = ScheduleType.Always → p.frame_percent = 1) ∧
    (∀ r a, p.ty = ScheduleType.Fixed r a →
      p.frame_percent = min 1 (max 0 (a / r))) ∧
    (∀ runner : ScheduleRunner, runner.frame_percent = runner.packed.frame_percent) := by
  cases p with
  | mk ty sched =>
    cases ty with
    | Always =>
      refine ⟨by norm_num [PackedSchedule.frame_percent],
        by norm_num [PackedSchedule.frame_percent], fun _ => rfl, ?_, fun _ => rfl⟩
      intro r a h
      cases h
    | Fixed r a =>
      refine ⟨?_, ?_, ?_, ?_, fun _ => rfl⟩
      · show (0 : ℚ) ≤ min 1 (max 0 (a / r))
        exact le_min (by norm_num) (le_max_left 0 _)
      · exact min_le_left _ _
      · intro h
        cases h
      · intro r2 a2 h
        cases h
        rfl

/-- C7 witness: Fixed(2, 1) reports the clamp of 1/2. -/
theorem C7_witness :
    PackedSchedule.frame_percent ⟨ScheduleType.Fixed 2 1, Schedule.mkDefault⟩ =
      min 1 (max 0 ((1 : ℚ) / 2)) :=
  (C7_frame_percent ⟨ScheduleType.Fixed 2 1, Schedule.mkDefault⟩).2.2.2.1 2 1 rfl

/-- C8 (counterexample): Fixed(1, 5) run with elapsed 0 performs five
passes, not zero, so a zero elapsed value does not always yield zero
runs. -/
theorem C8_counterexample :
    PackedSchedule.run ⟨ScheduleType.Fixed 1 5, Schedule.mkDefault⟩ (some 0) =
      some (⟨ScheduleType.Fixed 1 0, Schedule.mkDefault⟩,
        Ev.init :: List.replicate 5 Ev.pass) ∧
    passCount (Ev.init :: List.replicate 5 Ev.pass) = 5 ∧ ((5 : ℕ) ≠ 0) := by
  refine ⟨?_, ?_, by norm_num⟩
  · have h := (C1_fixed_run_floor 1 5 0 Schedule.mkDefault (by norm_num) (by norm_num)).1
    norm_num at h
    convert h using 3
  · rw [passCount_init, passCount_replicate]

/-- C8 (amended): a run fails fatally exactly when the policy is Fixed and
no Time reading exists: an Always run never fails even without a clock, a
Fixed run without a clock always fails, a positive-rate Fixed run with a
clock never fails, and a zero-or-negative elapsed value is no error,
yielding zero passes whenever the accumulator is below the rate
beforehand. -/
theorem C8_fatal_iff_missing_clock :
    (∀ (s : Schedule) (t : Option ℚ),
      PackedSchedule.run ⟨ScheduleType.Always, s⟩ t ≠ none) ∧
    (∀ (r a : ℚ) (s : Schedule),
      PackedSchedule.run ⟨ScheduleType.Fixed r a, s⟩ none = none) ∧
    (∀ (r a e : ℚ) (s : Schedule), 0 < r →
      PackedSchedule.run ⟨ScheduleType.Fixed r a, s⟩ (some e) ≠ none) ∧
    (∀ (r a e : ℚ) (s : Schedule), 0 < r → a < r → e ≤ 0 →
      PackedSchedule.run ⟨ScheduleType.Fixed r a, s⟩ (some e) =
        some (⟨ScheduleType.Fixed r (a + e), s⟩, [Ev.init])) := by
  refine ⟨?_, ?_, ?_, ?_⟩
  · intro s t
    rw [run_always_eq ⟨ScheduleType.Always, s⟩ rfl t]
    simp
  · intro r a s
    rfl
  · intro r a e s hr
    rw [run_fixed_eq]
    simp
  · intro r a e s hr h1 he
    rw [run_fixed_eq, fixedDrain_small r (a + e) (not_le.mpr (by linarith))]
    rfl

/-- C8 witness: the four clauses at concrete instances. -/
theorem C8_witness :
    PackedSchedule.run ⟨ScheduleType.Always, Schedule.mkDefault⟩ none ≠ none ∧
    PackedSchedule.run ⟨ScheduleType.Fixed 1 0, Schedule.mkDefault⟩ none = none ∧
    PackedSchedule.run ⟨ScheduleType.Fixed 1 0, Schedule.mkDefault⟩ (some 1) ≠ none ∧
    PackedSchedule.run ⟨ScheduleType.Fixed 1 (1/2), Schedule.mkDefault⟩ (some (-1/2)) =
      some (⟨ScheduleType.Fixed 1 (1/2 + -1/2), Schedule.mkDefault⟩, [Ev.init]) :=
  ⟨C8_fatal_iff_missing_clock.1 Schedule.mkDefault none,
    C8_fatal_iff_missing_clock.2.1 1 0 Schedule.mkDefault,
    C8_fatal_iff_missing_clock.2.2.1 1 0 1 Schedule.mkDefault (by norm_num),
    C8_fatal_iff_missing_clock.2.2.2 1 (1/2) (-1/2) Schedule.mkDefault
      (by norm_num) (by norm_num) (by norm_num)⟩

/-- C9 (counterexample): Fixed(1, 0) run with elapsed 3 produces the trace
init, pass, pass, pass: a single executor set-up call followed by three
passes, so the second and third passes are not directly preceded by their
own set-up call. -/
theorem C9_counterexample :
    PackedSchedule.run ⟨ScheduleType.Fixed 1 0, Schedule.mkDefault⟩ (some 3) =
      some (⟨ScheduleType.Fixed 1 0, Schedule.mkDefault⟩,
        [Ev.init, Ev.pass, Ev.pass, Ev.pass]) ∧
    specEachPassOwnInit [Ev.init, Ev.pass, Ev.pass, Ev.pass] = false := by
  refine ⟨?_, rfl⟩
  have h := (C1_fixed_run_floor 1 0 3 Schedule.mkDefault (by norm_num) (by norm_num)).1
  norm_num at h
  convert h using 3

/-- C9 (amended): every successful run call emits exactly one executor
set-up event, at the start of the call, followed by all of the passes of
that call; the set-up is not repeated before each pass. -/
theorem C9_single_init_then_passes (p : PackedSchedule) (t : Option ℚ)
    (q : PackedSchedule) (tr : List Ev) (h : p.run t = some (q, tr)) :
    tr = Ev.init :: List.replicate (passCount tr) Ev.pass := by
  cases p with
  | mk ty sched =>
    cases ty with
    | Always =>
      rw [run_always_eq ⟨ScheduleType.Always, sched⟩ rfl t] at h
      injection h with hh
      injection hh with h1 h2
      subst h2
      rfl
    | Fixed rate acc =>
      cases t with
      | none => exact Option.noConfusion h
      | some dt =>
        rw [run_fixed_eq] at h
        injection h with hh
        injection hh with h1 h2
        subst h2
        rw [passCount_init, passCount_replicate]

/-- C9 witness: the Always trace is one set-up event then its one pass. -/
theorem C9_witness :
    [Ev.init, Ev.pass] =
      Ev.init :: List.replicate (passCount [Ev.init, Ev.pass]) Ev.pass :=
  C9_single_init_then_passes ⟨ScheduleType.Always, Schedule.mkDefault⟩ none
    ⟨ScheduleType.Always, Schedule.mkDefault⟩ [Ev.init, Ev.pass] rfl

/-- C10 (counterexample): with rate 1 and updated accumulator -3 the loop
exits after zero iterations, while floor((accumulator + elapsed) / rate)
is -3, so the iteration count does not equal the floor there. -/
theorem C10_counterexample :
    fixedDrain 1 ((0 : ℚ) + -3) = (0, -3) ∧
    drainFuel 1 5 ((0 : ℚ) + -3) = some (0, -3) ∧
    ⌊((0 : ℚ) + -3) / 1⌋ = -3 ∧ (((0 : ℕ) : ℤ) ≠ -3) := by
  have h0 : ((0 : ℚ) + -3) = -3 := by norm_num
  refine ⟨?_, ?_, ?_, by norm_num⟩
  · rw [h0]
    exact fixedDrain_small 1 (-3) (by norm_num)
  · rw [h0]
    norm_num [drainFuel]
  · rw [h0]
    norm_num

/-- C10 (amended): for rate > 0 the tick loop terminates, with fuel one
more than the non-negative clamp of floor((accumulator + elapsed) / rate),
and performs exactly that clamped-floor many iterations (equal to the
floor whenever the updated accumulator is non-negative); for rate <= 0
with the loop guard initially true, no finite fuel makes it exit. -/
theorem C10_loop_terminates (rate acc e : ℚ) :
    (0 < rate →
      drainFuel rate ((⌊(acc + e) / rate⌋).toNat + 1) (acc + e) =
        some (fixedDrain rate (acc + e)) ∧
      (fixedDrain rate (acc + e)).1 = (⌊(acc + e) / rate⌋).toNat) ∧
    (rate ≤ 0 → rate ≤ acc + e → ∀ fuel, drainFuel rate fuel (acc + e) = none) := by
  constructor
  · intro hr
    exact ⟨drainFuel_complete rate hr ((⌊(acc + e) / rate⌋).toNat + 1) (acc + e)
        (by omega),
      fixedDrain_count rate hr (acc + e)⟩
  · intro hr hle fuel
    exact drainFuel_diverge rate hr fuel (acc + e) hle

/-- C10 witness: rate 1 with updated accumulator 3 terminates in three
iterations; rate -1 with the guard true diverges for fuel 7. -/
theorem C10_witness :
    drainFuel 1 ((⌊((0 : ℚ) + 3) / 1⌋).toNat + 1) ((0 : ℚ) + 3) =
      some (fixedDrain 1 ((0 : ℚ) + 3)) ∧
    (fixedDrain 1 ((0 : ℚ) + 3)).1 = (⌊((0 : ℚ) + 3) / 1⌋).toNat ∧
    drainFuel (-1) 7 ((0 : ℚ) + 0) = none := by
  refine ⟨((C10_loop_terminates 1 0 3).1 (by norm_num)).1,
    ((C10_loop_terminates 1 0 3).1 (by norm_num)).2,
    (C10_loop_terminates (-1) 0 0).2 (by norm_num) (by norm_num) 7⟩
